import Mathlib

/-!
Verification of `menpo/math/linalg.py`: the blocked in-place matrix
multiplier (`dot_inplace_left`, `dot_inplace_right`) and the vectorization
gateway (`as_matrix`, `from_matrix`).

Modelling conventions:
* A dense NumPy 2-D array is modelled as a `Mat`: an explicit shape together
  with an entry function `Nat → Nat → Int` (entries outside the shape are
  never written and only the in-shape entries are ever quantified over).
* In-place mutation is modelled by explicit state passing: each multiplier
  returns the post-call contents of the mutated operand together with the
  returned view.
* Python exceptions (`ValueError`, `IndexError`, `StopIteration`) are
  modelled with `Except`.
-/

namespace Menpo

/-- A shaped dense matrix: `entry r c` is the element at row `r`, column `c`
for `r < rows`, `c < cols`. -/
structure Mat where
  rows : Nat
  cols : Nat
  entry : Nat → Nat → Int

/-- Sum of `f 0 + f 1 + ... + f (n-1)`, the summation performed by a dense
dot product over the contracted dimension. -/
def sumTo (f : Nat → Int) : Nat → Int
  | 0 => 0
  | n + 1 => sumTo f n + f n

/-- Entry `(r, c)` of the conventional (non-in-place) product of `a` and `b`
with contracted dimension `k`. -/
def mulEntry (a b : Nat → Nat → Int) (k r c : Nat) : Int :=
  sumTo (fun t => a r t * b t c) k

/-- The errors raised by the multipliers: `cannotDot` is the inner-dimension
mismatch `ValueError`, and the two `cannotDotInplace…` constructors are the
direction-specific capacity errors (distinct messages per direction). -/
inductive LinalgError where
  | cannotDot (ashape bshape : Nat × Nat)
  | cannotDotInplaceLeft (nsmall ka : Nat)
  | cannotDotInplaceRight (nsmall kb : Nat)
deriving DecidableEq, Repr

/-- One iteration of the `dot_inplace_left` loop body:
`a[i:j, :nsmall] = a[i:j].dot(b)`.  The slice `a[i:j]` clamps `j` to the row
count `nbig`, and the right-hand side is fully evaluated from the current
`a` before the assignment. -/
def blockWriteLeft (a b : Nat → Nat → Int) (k nsmall nbig i j : Nat) :
    Nat → Nat → Int :=
  fun r c =>
    if i ≤ r ∧ r < j ∧ r < nbig ∧ c < nsmall then mulEntry a b k r c
    else a r c

/-- The loop `for i in range(0, n_big, block_size)` of `dot_inplace_left`,
threading the mutated contents of `a` explicitly. -/
def dotLeftLoop (b : Nat → Nat → Int) (k nsmall bs nbig i : Nat)
    (a : Nat → Nat → Int) : Nat → Nat → Int :=
  if _h : 0 < bs ∧ i < nbig then
    dotLeftLoop b k nsmall bs nbig (i + bs)
      (blockWriteLeft a b k nsmall nbig i (i + bs))
  else a
termination_by nbig - i
decreasing_by omega

/-- `dot_inplace_left(a, b, block_size)`: checks the two shape conditions in
source order, then runs the blocked loop.  On success returns the post-call
contents of `a` together with the returned view `a[:, :n_small]`. -/
def dot_inplace_left (a b : Mat) (block_size : Nat := 1000) :
    Except LinalgError (Mat × Mat) :=
  if a.cols ≠ b.rows then
    .error (.cannotDot (a.rows, a.cols) (b.rows, b.cols))
  else if b.cols > a.cols then
    .error (.cannotDotInplaceLeft b.cols a.cols)
  else
    let a2 := dotLeftLoop b.entry a.cols b.cols block_size a.rows 0 a.entry
    .ok (⟨a.rows, a.cols, a2⟩, ⟨a.rows, b.cols, a2⟩)

/-- One iteration of the `dot_inplace_right` loop body:
`b[:nsmall, i:j] = a.dot(b[:, i:j])`, with the column slice clamped to
`nbig` and the right-hand side evaluated before the assignment. -/
def blockWriteRight (b a : Nat → Nat → Int) (k nsmall nbig i j : Nat) :
    Nat → Nat → Int :=
  fun r c =>
    if r < nsmall ∧ i ≤ c ∧ c < j ∧ c < nbig then mulEntry a b k r c
    else b r c

/-- The loop `for i in range(0, n_big, block_size)` of `dot_inplace_right`,
threading the mutated contents of `b` explicitly. -/
def dotRightLoop (a : Nat → Nat → Int) (k nsmall bs nbig i : Nat)
    (b : Nat → Nat → Int) : Nat → Nat → Int :=
  if _h : 0 < bs ∧ i < nbig then
    dotRightLoop a k nsmall bs nbig (i + bs)
      (blockWriteRight b a k nsmall nbig i (i + bs))
  else b
termination_by nbig - i
decreasing_by omega

/-- `dot_inplace_right(a, b, block_size)`: checks the two shape conditions in
source order, then runs the blocked loop.  On success returns the post-call
contents of `b` together with the returned view `b[:n_small]`. -/
def dot_inplace_right (a b : Mat) (block_size : Nat := 1000) :
    Except LinalgError (Mat × Mat) :=
  if a.cols ≠ b.rows then
    .error (.cannotDot (a.rows, a.cols) (b.rows, b.cols))
  else if a.rows > b.rows then
    .error (.cannotDotInplaceRight a.rows b.rows)
  else
    let b2 := dotRightLoop a.entry a.cols a.rows block_size b.cols 0 b.entry
    .ok (⟨b.rows, b.cols, b2⟩, ⟨a.rows, b.cols, b2⟩)

/-- Transpose of a `Mat`. -/
def Mat.transpose (m : Mat) : Mat :=
  ⟨m.cols, m.rows, fun r c => m.entry c r⟩

/-- A `Mat` built from a concrete list of rows (for concrete evaluations). -/
def Mat.ofRows (l : List (List Int)) : Mat :=
  ⟨l.length, (l.headD []).length, fun r c => (l.getD r []).getD c 0⟩

/-- The Vectorizable capability contract consumed by the gateway: an entity
type must provide `n_parameters`, `as_vector` and `from_vector`.  The entity
on which `from_vector` is invoked serves only as a structural template. -/
structure VOps (E : Type) where
  n_parameters : E → Nat
  as_vector : E → List Int
  from_vector : E → List Int → E

/-- The Python exceptions the gateway can raise: `IndexError` (empty-list
subscript, or row assignment out of range), `StopIteration` (exhausted
generator passed to `next`), and the NumPy broadcast `ValueError` raised by
a row assignment whose vector length disagrees with the row length. -/
inductive PyError where
  | indexError
  | stopIteration
  | broadcastError
deriving DecidableEq, Repr

/-- Models the NumPy row assignment `data[i] = v` on a row-list matrix:
`IndexError` when `i` is out of range, the broadcast `ValueError` when the
assigned vector's length differs from the row's length (NumPy's broadcasting
of length-1 vectors is not modelled; no claim exercises it), otherwise the
matrix with row `i` replaced. -/
def setRow (data : List (List Int)) (i : Nat) (v : List Int) :
    Except PyError (List (List Int)) :=
  if i < data.length then
    if v.length = (data.getD i []).length then .ok (data.set i v)
    else .error .broadcastError
  else .error .indexError

/-- Modelled from the spec: the label handed to the progress sink after each
row beyond the first.  The bodies of `print_dynamic` and `progress_bar_str`
(from `menpo.visualize`) are not part of this module; per the spec they only
emit a descriptive label and fractional completion to an external sink, so
emission is modelled as appending the label to an output log. -/
def progressMessage (length i : Nat) : String :=
  "Building data matrix from " ++ toString length ++ " samples - " ++
    toString (i + 1) ++ " of " ++ toString length

/-- Modelled from the spec: the allocation report printed by `as_matrix` when
verbose (the numeric gigabyte figure is irrelevant to every claim). -/
def allocMessage : String :=
  "Allocated data matrix"

/-- The filling loop of `as_matrix`:
`for i, sample in enumerate(vectorizables, 1): if i >= length: break; ...`.
The consumed source items are the list, `i` is the 1-based enumeration
index, and the verbose branch appends a progress label before each write. -/
def fillRows {E : Type} (ops : VOps E) (length : Nat) (verbose : Bool) :
    List E → Nat → List (List Int) → List String →
    Except PyError (List (List Int) × List String)
  | [], _, data, log => .ok (data, log)
  | sample :: rest, i, data, log =>
    if i ≥ length then .ok (data, log)
    else
      let log2 := if verbose then log ++ [progressMessage length i] else log
      match setRow data i (ops.as_vector sample) with
      | .error e => .error e
      | .ok data2 => fillRows ops length verbose rest (i + 1) data2 log2

/-- The common tail of `as_matrix` once the template and the remaining items
are known: read `n_parameters` and the template's vector, allocate the
zero matrix of shape `(length, n_features)`, write row 0 from the template,
then run the filling loop from index 1. -/
def as_matrix_core {E : Type} (ops : VOps E) (template : E) (rest : List E)
    (length : Nat) (verbose : Bool) :
    Except PyError (List (List Int) × List String) :=
  let n_features := ops.n_parameters template
  let template_vector := ops.as_vector template
  let data := List.replicate length (List.replicate n_features 0)
  let log := if verbose then [allocMessage] else []
  match setRow data 0 template_vector with
  | .error e => .error e
  | .ok data2 => fillRows ops length verbose rest 1 data2 log

/-- `as_matrix(vectorizables, length, return_template, verbose)`.  A `none`
length means the source is a list (`len`/subscript are used); a `some`
length means the source is a generator, modelled by the (finite) sequence of
items it would yield, consumed with `next` and iteration.  The result pairs
the Python return value (matrix, and the template when requested) with the
log of labels emitted to the progress sink. -/
def as_matrix {E : Type} (ops : VOps E) (vectorizables : List E)
    (length : Option Nat) (return_template : Bool := false)
    (verbose : Bool := false) :
    Except PyError ((List (List Int) × Option E) × List String) :=
  match length with
  | none =>
    match vectorizables with
    | [] => .error .indexError
    | template :: rest =>
      (as_matrix_core ops template rest (rest.length + 1) verbose).map
        (fun p => ((p.1, if return_template then some template else none), p.2))
  | some len =>
    match vectorizables with
    | [] => .error .stopIteration
    | template :: rest =>
      (as_matrix_core ops template rest len verbose).map
        (fun p => ((p.1, if return_template then some template else none), p.2))

/-- `from_matrix(matrix, template)` with the eager (list) output: one entity
per matrix row, each produced by the template's `from_vector` on that row. -/
def from_matrix {E : Type} (ops : VOps E) (matrix : List (List Int))
    (template : E) : List E :=
  matrix.map (ops.from_vector template)

/-- One pull of the generator returned by `from_matrix(..., as_generator=True)`
(`(template.from_vector(row) for row in matrix)`): the remaining rows are
the generator's state, and each pull decodes the next row on demand. -/
def fromMatrixGenNext {E : Type} (ops : VOps E) (template : E) :
    List (List Int) → Option (E × List (List Int))
  | [] => none
  | row :: rest => some (ops.from_vector template row, rest)

/-- Fully consuming the lazy output of `from_matrix`: pull with
`fromMatrixGenNext` until exhausted, collecting the yields in order. -/
def consumeGen {E : Type} (ops : VOps E) (template : E)
    (st : List (List Int)) : List E :=
  match h : fromMatrixGenNext ops template st with
  | none => []
  | some p => p.1 :: consumeGen ops template p.2
termination_by st.length
decreasing_by
  cases st with
  | nil => simp [fromMatrixGenNext] at h
  | cons row rest =>
    simp only [fromMatrixGenNext, Option.some.injEq] at h
    rw [← h]
    simp

/-- The rows produced by the filling loop when it does not fail: the front
of `post` is overwritten, row by row, with the samples' encodings, stopping
at whichever of the two lists runs out first. -/
def overwrite {E : Type} (ops : VOps E) :
    List E → List (List Int) → List (List Int)
  | [], post => post
  | _ :: _, [] => []
  | s :: ss, _ :: ps => ops.as_vector s :: overwrite ops ss ps

/-- A concrete vectorizable entity type for evaluating the gateway on
closed inputs: the entity is its own encoding, so `as_vector` and
`from_vector` are mutually inverse and `n_parameters` is the length. -/
def listOps : VOps (List Int) where
  n_parameters := fun v => v.length
  as_vector := fun v => v
  from_vector := fun _ v => v

theorem sumTo_congr (f g : Nat → Int) (n : Nat) (h : ∀ t < n, f t = g t) :
    sumTo f n = sumTo g n := by
  induction n with
  | zero => rfl
  | succ m ih =>
    simp only [sumTo]
    rw [ih (fun t ht => h t (by omega)), h m (by omega)]

theorem mulEntry_congr_left (a a' b : Nat → Nat → Int) (k r c : Nat)
    (h : ∀ t < k, a r t = a' r t) :
    mulEntry a b k r c = mulEntry a' b k r c := by
  unfold mulEntry
  exact sumTo_congr _ _ _ (fun t ht => by rw [h t ht])

theorem mulEntry_congr_right (a b b' : Nat → Nat → Int) (k r c : Nat)
    (h : ∀ t < k, b t c = b' t c) :
    mulEntry a b k r c = mulEntry a b' k r c := by
  unfold mulEntry
  exact sumTo_congr _ _ _ (fun t ht => by rw [h t ht])

/-- Unrolled description of the left loop: starting at block offset `i` with
current contents `a` that still agree with the original contents `a0` on all
rows `≥ i`, the loop overwrites exactly the region
`[i, nbig) × [0, nsmall)` with entries of the conventional product of the
ORIGINAL `a0` against `b`, and leaves every other entry of `a` alone. -/
theorem dotLeftLoop_eq (b a0 : Nat → Nat → Int) (k nsmall bs nbig : Nat)
    (hbs : 0 < bs) (i : Nat) (a : Nat → Nat → Int)
    (ha : ∀ r t, i ≤ r → a r t = a0 r t) (r c : Nat) :
    dotLeftLoop b k nsmall bs nbig i a r c =
      if i ≤ r ∧ r < nbig ∧ c < nsmall then mulEntry a0 b k r c
      else a r c := by
  rw [dotLeftLoop]
  by_cases hi : i < nbig
  · rw [dif_pos ⟨hbs, hi⟩]
    have ha2 : ∀ r t, i + bs ≤ r →
        blockWriteLeft a b k nsmall nbig i (i + bs) r t = a0 r t := by
      intro r t hr
      unfold blockWriteLeft
      rw [if_neg (by omega)]
      exact ha r t (by omega)
    rw [dotLeftLoop_eq b a0 k nsmall bs nbig hbs (i + bs) _ ha2 r c]
    unfold blockWriteLeft
    by_cases h1 : i + bs ≤ r ∧ r < nbig ∧ c < nsmall
    · rw [if_pos h1, if_pos ⟨by omega, h1.2⟩]
    · rw [if_neg h1]
      by_cases h2 : i ≤ r ∧ r < i + bs ∧ r < nbig ∧ c < nsmall
      · rw [if_pos h2, if_pos ⟨h2.1, h2.2.2⟩]
        exact mulEntry_congr_left _ _ _ _ _ _ (fun t _ => ha r t h2.1)
      · rw [if_neg h2, if_neg (by omega)]
  · rw [dif_neg (by omega), if_neg (by omega)]
termination_by nbig - i
decreasing_by omega

/-- Unrolled description of the right loop, symmetric to `dotLeftLoop_eq`:
the loop overwrites exactly the region `[0, nsmall) × [i, nbig)` of `b`
with entries of the product of `a` against the ORIGINAL contents `b0`. -/
theorem dotRightLoop_eq (a b0 : Nat → Nat → Int) (k nsmall bs nbig : Nat)
    (hbs : 0 < bs) (i : Nat) (b : Nat → Nat → Int)
    (hb : ∀ t c, i ≤ c → b t c = b0 t c) (r c : Nat) :
    dotRightLoop a k nsmall bs nbig i b r c =
      if r < nsmall ∧ i ≤ c ∧ c < nbig then mulEntry a b0 k r c
      else b r c := by
  rw [dotRightLoop]
  by_cases hi : i < nbig
  · rw [dif_pos ⟨hbs, hi⟩]
    have hb2 : ∀ t c, i + bs ≤ c →
        blockWriteRight b a k nsmall nbig i (i + bs) t c = b0 t c := by
      intro t c hc
      unfold blockWriteRight
      rw [if_neg (by omega)]
      exact hb t c (by omega)
    rw [dotRightLoop_eq a b0 k nsmall bs nbig hbs (i + bs) _ hb2 r c]
    unfold blockWriteRight
    by_cases h1 : r < nsmall ∧ i + bs ≤ c ∧ c < nbig
    · rw [if_pos h1, if_pos ⟨h1.1, by omega, h1.2.2⟩]
    · rw [if_neg h1]
      by_cases h2 : r < nsmall ∧ i ≤ c ∧ c < i + bs ∧ c < nbig
      · rw [if_pos h2, if_pos ⟨h2.1, h2.2.1, h2.2.2.2⟩]
        exact mulEntry_congr_right _ _ _ _ _ _ (fun t _ => hb t c h2.2.1)
      · rw [if_neg h2, if_neg (by omega)]
  · rw [dif_neg (by omega), if_neg (by omega)]
termination_by nbig - i
decreasing_by omega

/-- On valid shapes `dot_inplace_left` takes its success branch, returning
the loop's output both as the new contents of `a` and as the view. -/
theorem dot_inplace_left_ok (a b : Mat) (bs : Nat)
    (hk : a.cols = b.rows) (hns : b.cols ≤ a.cols) :
    dot_inplace_left a b bs = .ok
      (⟨a.rows, a.cols, dotLeftLoop b.entry a.cols b.cols bs a.rows 0 a.entry⟩,
       ⟨a.rows, b.cols, dotLeftLoop b.entry a.cols b.cols bs a.rows 0 a.entry⟩) := by
  unfold dot_inplace_left
  rw [if_neg (by omega), if_neg (by omega)]

/-- On valid shapes `dot_inplace_right` takes its success branch. -/
theorem dot_inplace_right_ok (a b : Mat) (bs : Nat)
    (hk : a.cols = b.rows) (hns : a.rows ≤ b.rows) :
    dot_inplace_right a b bs = .ok
      (⟨b.rows, b.cols, dotRightLoop a.entry a.cols a.rows bs b.cols 0 b.entry⟩,
       ⟨a.rows, b.cols, dotRightLoop a.entry a.cols a.rows bs b.cols 0 b.entry⟩) := by
  unfold dot_inplace_right
  rw [if_neg (by omega), if_neg (by omega)]

/-- Entries of the finished left loop, starting from block offset 0. -/
theorem dotLeft_entry (a b : Mat) (bs : Nat) (hbs : 1 ≤ bs) (r c : Nat) :
    dotLeftLoop b.entry a.cols b.cols bs a.rows 0 a.entry r c =
      if r < a.rows ∧ c < b.cols then mulEntry a.entry b.entry a.cols r c
      else a.entry r c := by
  rw [dotLeftLoop_eq b.entry a.entry a.cols b.cols bs a.rows hbs 0 a.entry
    (fun _ _ _ => rfl) r c]
  by_cases h : r < a.rows ∧ c < b.cols
  · rw [if_pos ⟨by omega, h.1, h.2⟩, if_pos h]
  · rw [if_neg (by omega), if_neg h]

/-- Entries of the finished right loop, starting from block offset 0. -/
theorem dotRight_entry (a b : Mat) (bs : Nat) (hbs : 1 ≤ bs) (r c : Nat) :
    dotRightLoop a.entry a.cols a.rows bs b.cols 0 b.entry r c =
      if r < a.rows ∧ c < b.cols then mulEntry a.entry b.entry a.cols r c
      else b.entry r c := by
  rw [dotRightLoop_eq a.entry b.entry a.cols a.rows bs b.cols hbs 0 b.entry
    (fun _ _ _ => rfl) r c]
  by_cases h : r < a.rows ∧ c < b.cols
  · rw [if_pos ⟨h.1, by omega, h.2⟩, if_pos h]
  · rw [if_neg (by omega), if_neg h]

/-- C1: for every A of shape `(n_big, k)` and B of shape `(k, n_small)` with
`n_small ≤ k`, and every block size of at least 1 (so in particular every
block size from 1 up to `n_big`), `dot_inplace_left` succeeds and returns
the conventional non-in-place product `A·B` restricted to the first
`n_small` columns, of shape `(n_big, n_small)`; moreover the returned
entries are identical for any other block size of at least 1. -/
theorem dot_inplace_left_matches_conventional (a b : Mat) (bs : Nat)
    (hk : a.cols = b.rows) (hns : b.cols ≤ a.cols) (hbs : 1 ≤ bs) :
    ∃ a2 c, dot_inplace_left a b bs = .ok (a2, c) ∧
      c.rows = a.rows ∧ c.cols = b.cols ∧
      (∀ r < a.rows, ∀ j < b.cols,
        c.entry r j = mulEntry a.entry b.entry a.cols r j) ∧
      (∀ bs2, 1 ≤ bs2 → ∀ a2' c',
        dot_inplace_left a b bs2 = Except.ok (a2', c') →
        ∀ r < a.rows, ∀ j < b.cols, c'.entry r j = c.entry r j) := by
  refine ⟨_, _, dot_inplace_left_ok a b bs hk hns, rfl, rfl, ?_, ?_⟩
  · intro r hr j hj
    show dotLeftLoop b.entry a.cols b.cols bs a.rows 0 a.entry r j = _
    rw [dotLeft_entry a b bs hbs r j, if_pos ⟨hr, hj⟩]
  · intro bs2 hbs2 a2' c' heq r hr j hj
    rw [dot_inplace_left_ok a b bs2 hk hns] at heq
    simp only [Except.ok.injEq, Prod.mk.injEq] at heq
    rw [← heq.2]
    show dotLeftLoop b.entry a.cols b.cols bs2 a.rows 0 a.entry r j =
      dotLeftLoop b.entry a.cols b.cols bs a.rows 0 a.entry r j
    rw [dotLeft_entry a b bs2 hbs2 r j, dotLeft_entry a b bs hbs r j]

theorem dot_inplace_left_matches_conventional_witness :
    ∃ a2 c,
      dot_inplace_left (Mat.ofRows [[1, 2], [3, 4], [5, 6]])
        (Mat.ofRows [[1], [1]]) 1 = .ok (a2, c) ∧
      c.rows = (Mat.ofRows [[1, 2], [3, 4], [5, 6]]).rows ∧
      c.cols = (Mat.ofRows [[1], [1]]).cols ∧
      (∀ r < (Mat.ofRows [[1, 2], [3, 4], [5, 6]]).rows,
        ∀ j < (Mat.ofRows [[1], [1]]).cols,
        c.entry r j = mulEntry (Mat.ofRows [[1, 2], [3, 4], [5, 6]]).entry
          (Mat.ofRows [[1], [1]]).entry
          (Mat.ofRows [[1, 2], [3, 4], [5, 6]]).cols r j) ∧
      (∀ bs2, 1 ≤ bs2 → ∀ a2' c',
        dot_inplace_left (Mat.ofRows [[1, 2], [3, 4], [5, 6]])
          (Mat.ofRows [[1], [1]]) bs2 = Except.ok (a2', c') →
        ∀ r < (Mat.ofRows [[1, 2], [3, 4], [5, 6]]).rows,
          ∀ j < (Mat.ofRows [[1], [1]]).cols,
          c'.entry r j = c.entry r j) :=
  dot_inplace_left_matches_conventional
    (Mat.ofRows [[1, 2], [3, 4], [5, 6]]) (Mat.ofRows [[1], [1]]) 1
    (by decide) (by decide) (by decide)

/-- C2: for both multipliers (run with a positive block size, as Python's
`range` requires), an error is raised if and only if the inner dimensions
disagree or `n_small` exceeds the shared dimension for the chosen
direction; when the capacity check fails the error is the direction's own
constructor, and the two directions' capacity errors are distinct.  In the
model an error return carries no post-call contents at all: the loop is
never entered, so neither operand has been mutated. -/
theorem shape_mismatch_iff (a b : Mat) (bs : Nat) (hbs : 0 < bs) :
    ((∃ e, dot_inplace_left a b bs = Except.error e) ↔
      (a.cols ≠ b.rows ∨ a.cols < b.cols)) ∧
    ((∃ e, dot_inplace_right a b bs = Except.error e) ↔
      (a.cols ≠ b.rows ∨ b.rows < a.rows)) ∧
    (a.cols = b.rows → a.cols < b.cols →
      dot_inplace_left a b bs =
        .error (.cannotDotInplaceLeft b.cols a.cols)) ∧
    (a.cols = b.rows → b.rows < a.rows →
      dot_inplace_right a b bs =
        .error (.cannotDotInplaceRight a.rows b.rows)) ∧
    (∀ n k, LinalgError.cannotDotInplaceLeft n k ≠
      LinalgError.cannotDotInplaceRight n k) := by
  refine ⟨⟨?_, ?_⟩, ⟨?_, ?_⟩, ?_, ?_, ?_⟩
  · rintro ⟨e, he⟩
    by_contra hcon
    push_neg at hcon
    rw [dot_inplace_left_ok a b bs hcon.1 (by omega)] at he
    exact Except.noConfusion he
  · intro hor
    unfold dot_inplace_left
    by_cases h1 : a.cols ≠ b.rows
    · rw [if_pos h1]
      exact ⟨_, rfl⟩
    · rw [if_neg h1, if_pos (by omega)]
      exact ⟨_, rfl⟩
  · rintro ⟨e, he⟩
    by_contra hcon
    push_neg at hcon
    rw [dot_inplace_right_ok a b bs hcon.1 (by omega)] at he
    exact Except.noConfusion he
  · intro hor
    unfold dot_inplace_right
    by_cases h1 : a.cols ≠ b.rows
    · rw [if_pos h1]
      exact ⟨_, rfl⟩
    · rw [if_neg h1, if_pos (by omega)]
      exact ⟨_, rfl⟩
  · intro h1 h2
    unfold dot_inplace_left
    rw [if_neg (by omega), if_pos (by omega)]
  · intro h1 h2
    unfold dot_inplace_right
    rw [if_neg (by omega), if_pos (by omega)]
  · intro n k hne
    exact LinalgError.noConfusion hne

theorem shape_mismatch_iff_witness :
    ((∃ e, dot_inplace_left (Mat.ofRows [[1, 2]]) (Mat.ofRows [[1], [1]])
        1000 = Except.error e) ↔
      ((Mat.ofRows [[1, 2]]).cols ≠ (Mat.ofRows [[1], [1]]).rows ∨
        (Mat.ofRows [[1, 2]]).cols < (Mat.ofRows [[1], [1]]).cols)) ∧
    ((∃ e, dot_inplace_right (Mat.ofRows [[1, 2]]) (Mat.ofRows [[1], [1]])
        1000 = Except.error e) ↔
      ((Mat.ofRows [[1, 2]]).cols ≠ (Mat.ofRows [[1], [1]]).rows ∨
        (Mat.ofRows [[1], [1]]).rows < (Mat.ofRows [[1, 2]]).rows)) ∧
    ((Mat.ofRows [[1, 2]]).cols = (Mat.ofRows [[1], [1]]).rows →
      (Mat.ofRows [[1, 2]]).cols < (Mat.ofRows [[1], [1]]).cols →
      dot_inplace_left (Mat.ofRows [[1, 2]]) (Mat.ofRows [[1], [1]]) 1000 =
        .error (.cannotDotInplaceLeft (Mat.ofRows [[1], [1]]).cols
          (Mat.ofRows [[1, 2]]).cols)) ∧
    ((Mat.ofRows [[1, 2]]).cols = (Mat.ofRows [[1], [1]]).rows →
      (Mat.ofRows [[1], [1]]).rows < (Mat.ofRows [[1, 2]]).rows →
      dot_inplace_right (Mat.ofRows [[1, 2]]) (Mat.ofRows [[1], [1]]) 1000 =
        .error (.cannotDotInplaceRight (Mat.ofRows [[1, 2]]).rows
          (Mat.ofRows [[1], [1]]).rows)) ∧
    (∀ n k, LinalgError.cannotDotInplaceLeft n k ≠
      LinalgError.cannotDotInplaceRight n k) :=
  shape_mismatch_iff (Mat.ofRows [[1, 2]]) (Mat.ofRows [[1], [1]]) 1000
    (by decide)

/-- Transposing both operands and swapping their roles turns one direction's
product entry into the other's. -/
theorem mulEntry_transpose (a b : Mat) (k r j : Nat) :
    mulEntry b.transpose.entry a.transpose.entry k j r =
      mulEntry a.entry b.entry k r j := by
  unfold mulEntry Mat.transpose
  exact sumTo_congr _ _ _ (fun t _ => mul_comm _ _)

/-- C3: for every A of shape `(n_big, k)` and B of shape `(k, n_small)` with
`n_small ≤ k` (and any positive block sizes), both variants succeed, and
the transpose of the view returned by `dot_inplace_right(Bᵗ, Aᵗ)` equals
the view returned by `dot_inplace_left(A, B)` — both equal to `A·B`. -/
theorem dot_left_right_transpose_agree (a b : Mat) (bs1 bs2 : Nat)
    (hk : a.cols = b.rows) (hns : b.cols ≤ a.cols)
    (hbs1 : 1 ≤ bs1) (hbs2 : 1 ≤ bs2) :
    ∃ a2 c b2 d,
      dot_inplace_left a b bs1 = .ok (a2, c) ∧
      dot_inplace_right b.transpose a.transpose bs2 = .ok (b2, d) ∧
      d.transpose.rows = c.rows ∧ d.transpose.cols = c.cols ∧
      (∀ r < c.rows, ∀ j < c.cols, d.transpose.entry r j = c.entry r j) ∧
      (∀ r < c.rows, ∀ j < c.cols,
        c.entry r j = mulEntry a.entry b.entry a.cols r j) := by
  have hk2 : (b.transpose).cols = (a.transpose).rows := by
    simp [Mat.transpose, hk]
  have hns2 : (b.transpose).rows ≤ (a.transpose).rows := by
    simp only [Mat.transpose]
    omega
  have hc : ∀ r < a.rows, ∀ j < b.cols,
      (⟨a.rows, b.cols,
        dotLeftLoop b.entry a.cols b.cols bs1 a.rows 0 a.entry⟩ : Mat).entry
        r j = mulEntry a.entry b.entry a.cols r j := by
    intro r hr j hj
    show dotLeftLoop b.entry a.cols b.cols bs1 a.rows 0 a.entry r j = _
    rw [dotLeft_entry a b bs1 hbs1 r j, if_pos ⟨hr, hj⟩]
  refine ⟨_, _, _, _, dot_inplace_left_ok a b bs1 hk hns,
    dot_inplace_right_ok b.transpose a.transpose bs2 hk2 hns2,
    rfl, rfl, ?_, hc⟩
  intro r hr j hj
  have hr2 : r < a.rows := hr
  have hj2 : j < b.cols := hj
  show dotRightLoop b.transpose.entry b.transpose.cols b.transpose.rows bs2
      a.transpose.cols 0 a.transpose.entry j r =
    dotLeftLoop b.entry a.cols b.cols bs1 a.rows 0 a.entry r j
  rw [dotRight_entry b.transpose a.transpose bs2 hbs2 j r,
    if_pos ⟨hj2, hr2⟩, dotLeft_entry a b bs1 hbs1 r j, if_pos ⟨hr2, hj2⟩]
  show mulEntry b.transpose.entry a.transpose.entry b.rows j r = _
  rw [mulEntry_transpose a b b.rows r j, hk]

theorem dot_left_right_transpose_agree_witness :
    ∃ a2 c b2 d,
      dot_inplace_left (Mat.ofRows [[1, 2], [3, 4], [5, 6]])
        (Mat.ofRows [[1], [1]]) 1 = .ok (a2, c) ∧
      dot_inplace_right (Mat.ofRows [[1], [1]]).transpose
        (Mat.ofRows [[1, 2], [3, 4], [5, 6]]).transpose 2 = .ok (b2, d) ∧
      d.transpose.rows = c.rows ∧ d.transpose.cols = c.cols ∧
      (∀ r < c.rows, ∀ j < c.cols, d.transpose.entry r j = c.entry r j) ∧
      (∀ r < c.rows, ∀ j < c.cols,
        c.entry r j =
          mulEntry (Mat.ofRows [[1, 2], [3, 4], [5, 6]]).entry
            (Mat.ofRows [[1], [1]]).entry
            (Mat.ofRows [[1, 2], [3, 4], [5, 6]]).cols r j) :=
  dot_left_right_transpose_agree (Mat.ofRows [[1, 2], [3, 4], [5, 6]])
    (Mat.ofRows [[1], [1]]) 1 2 (by decide) (by decide) (by decide) (by decide)

/-- C7: on a successful call, `dot_inplace_left` leaves every entry of `a`
outside its leading `n_small` columns unchanged, and `dot_inplace_right`
leaves every entry of `b` outside its leading `n_small` rows unchanged.
The small operand is read-only by construction of the model: no variant of
the state of `b` (respectively `a`) is ever produced. -/
theorem dot_inplace_frame (a b : Mat) (bs : Nat) (hbs : 1 ≤ bs)
    (hk : a.cols = b.rows) :
    (b.cols ≤ a.cols → ∃ a2 c, dot_inplace_left a b bs = .ok (a2, c) ∧
      a2.rows = a.rows ∧ a2.cols = a.cols ∧
      ∀ r j, b.cols ≤ j ∨ a.rows ≤ r → a2.entry r j = a.entry r j) ∧
    (a.rows ≤ b.rows → ∃ b2 c, dot_inplace_right a b bs = .ok (b2, c) ∧
      b2.rows = b.rows ∧ b2.cols = b.cols ∧
      ∀ r j, a.rows ≤ r ∨ b.cols ≤ j → b2.entry r j = b.entry r j) := by
  constructor
  · intro hns
    refine ⟨_, _, dot_inplace_left_ok a b bs hk hns, rfl, rfl, ?_⟩
    intro r j hout
    show dotLeftLoop b.entry a.cols b.cols bs a.rows 0 a.entry r j = a.entry r j
    rw [dotLeft_entry a b bs hbs r j, if_neg (by omega)]
  · intro hns
    refine ⟨_, _, dot_inplace_right_ok a b bs hk hns, rfl, rfl, ?_⟩
    intro r j hout
    show dotRightLoop a.entry a.cols a.rows bs b.cols 0 b.entry r j = b.entry r j
    rw [dotRight_entry a b bs hbs r j, if_neg (by omega)]

theorem dot_inplace_frame_witness :
    ((Mat.ofRows [[1], [1]]).cols ≤ (Mat.ofRows [[1, 2], [3, 4]]).cols →
      ∃ a2 c, dot_inplace_left (Mat.ofRows [[1, 2], [3, 4]])
        (Mat.ofRows [[1], [1]]) 1 = .ok (a2, c) ∧
      a2.rows = (Mat.ofRows [[1, 2], [3, 4]]).rows ∧
      a2.cols = (Mat.ofRows [[1, 2], [3, 4]]).cols ∧
      ∀ r j, (Mat.ofRows [[1], [1]]).cols ≤ j ∨
          (Mat.ofRows [[1, 2], [3, 4]]).rows ≤ r →
        a2.entry r j = (Mat.ofRows [[1, 2], [3, 4]]).entry r j) ∧
    ((Mat.ofRows [[1, 2], [3, 4]]).rows ≤ (Mat.ofRows [[1], [1]]).rows →
      ∃ b2 c, dot_inplace_right (Mat.ofRows [[1, 2], [3, 4]])
        (Mat.ofRows [[1], [1]]) 1 = .ok (b2, c) ∧
      b2.rows = (Mat.ofRows [[1], [1]]).rows ∧
      b2.cols = (Mat.ofRows [[1], [1]]).cols ∧
      ∀ r j, (Mat.ofRows [[1, 2], [3, 4]]).rows ≤ r ∨
          (Mat.ofRows [[1], [1]]).cols ≤ j →
        b2.entry r j = (Mat.ofRows [[1], [1]]).entry r j) :=
  dot_inplace_frame (Mat.ofRows [[1, 2], [3, 4]]) (Mat.ofRows [[1], [1]]) 1
    (by decide) (by decide)

theorem getD_append_length {α : Type} (pre : List α) (p : α) (ps : List α)
    (d : α) : (pre ++ p :: ps).getD pre.length d = p := by
  induction pre with
  | nil => rfl
  | cons x xs ih => simpa using ih

theorem set_append_length {α : Type} (pre : List α) (p v : α) (ps : List α) :
    (pre ++ p :: ps).set pre.length v = pre ++ v :: ps := by
  induction pre with
  | nil => rfl
  | cons x xs ih => simpa [List.set] using ih

theorem mem_zip_replicate {α β : Type} (z : β) :
    ∀ (l : List α) (n : Nat) (q : α × β),
      q ∈ l.zip (List.replicate n z) → q.1 ∈ l.take n ∧ q.2 = z := by
  intro l
  induction l with
  | nil => intro n q hq; simp [List.zip] at hq
  | cons x xs ih =>
    intro n q hq
    cases n with
    | zero => simp at hq
    | succ m =>
      rw [List.replicate_succ] at hq
      rcases List.mem_cons.mp hq with h | h
      · subst h
        exact ⟨by simp [List.take_succ_cons], rfl⟩
      · have := ih m q h
        exact ⟨by simp [List.take_succ_cons, this.1], this.2⟩

/-- The filling loop, run at index `pre.length` on the matrix `pre ++ post`,
succeeds and overwrites the front of `post` row by row with the samples'
encodings, provided every consumed sample's vector fits its target row;
it never touches `pre`, and stops at whichever list runs out first. -/
theorem fillRows_eq {E : Type} (ops : VOps E) (L : Nat) (vb : Bool) :
    ∀ (samples : List E) (pre post : List (List Int)) (log : List String),
      pre.length + post.length = L →
      (∀ q ∈ samples.zip post, (ops.as_vector q.1).length = q.2.length) →
      ∃ log2, fillRows ops L vb samples pre.length (pre ++ post) log =
        .ok (pre ++ overwrite ops samples post, log2) := by
  intro samples
  induction samples with
  | nil =>
    intro pre post log hlen hv
    exact ⟨log, by simp [fillRows, overwrite]⟩
  | cons s ss ih =>
    intro pre post log hlen hv
    cases post with
    | nil =>
      refine ⟨log, ?_⟩
      simp only [fillRows]
      rw [if_pos (by simp at hlen; omega)]
      simp [overwrite]
    | cons p ps =>
      have hlen2 : pre.length + ps.length + 1 = L := by
        simp at hlen; omega
      have hsp : (ops.as_vector s).length = p.length :=
        hv (s, p) (by simp [List.zip_cons_cons])
      simp only [fillRows]
      rw [if_neg (by omega)]
      have hset : setRow (pre ++ p :: ps) pre.length (ops.as_vector s) =
          .ok (pre ++ ops.as_vector s :: ps) := by
        unfold setRow
        rw [if_pos (by simp), if_pos (by rw [getD_append_length]; exact hsp),
          set_append_length]
      rw [hset]
      have hv2 : ∀ q ∈ ss.zip ps, (ops.as_vector q.1).length = q.2.length := by
        intro q hq
        exact hv q (by simp [List.zip_cons_cons, hq])
      obtain ⟨log3, h3⟩ := ih (pre ++ [ops.as_vector s]) ps
        (if vb then log ++ [progressMessage L pre.length] else log)
        (by simp; omega) hv2
      refine ⟨log3, ?_⟩
      show fillRows ops L vb ss (pre.length + 1) (pre ++ ops.as_vector s :: ps)
          (if vb = true then log ++ [progressMessage L pre.length] else log) =
        Except.ok (pre ++ ops.as_vector s :: overwrite ops ss ps, log3)
      simpa using h3

/-- `overwrite` against a block of identical (zero) rows: the consumed
samples' encodings, then the untouched tail of zero rows. -/
theorem overwrite_replicate {E : Type} (ops : VOps E) (z : List Int) :
    ∀ (ss : List E) (n : Nat),
      overwrite ops ss (List.replicate n z) =
        (ss.take n).map ops.as_vector ++ List.replicate (n - ss.length) z := by
  intro ss
  induction ss with
  | nil => intro n; simp [overwrite]
  | cons s ss ih =>
    intro n
    cases n with
    | zero => simp [overwrite]
    | succ m =>
      rw [List.replicate_succ]
      show ops.as_vector s :: overwrite ops ss (List.replicate m z) = _
      rw [ih m]
      simp [List.take_succ_cons, Nat.succ_sub_succ]

/-- `setRow` writing the template vector into row 0 of the freshly allocated
zero matrix, when the declared length is positive and the vector length
matches `n_features`. -/
theorem setRow_zero_alloc (L nf : Nat) (tv : List Int) (hL : 1 ≤ L)
    (htv : tv.length = nf) :
    setRow (List.replicate L (List.replicate nf 0)) 0 tv =
      .ok (tv :: List.replicate (L - 1) (List.replicate nf 0)) := by
  cases L with
  | zero => omega
  | succ m =>
    unfold setRow
    rw [List.replicate_succ]
    rw [if_pos (by simp), if_pos (by simpa using htv)]
    rfl

/-- Full description of the successful run of `as_matrix_core`: row 0 is the
template's encoding, the next rows are the consumed samples' encodings in
order (stopping once `length` rows are filled), and any remaining rows stay
at their zero-initialized default. -/
theorem as_matrix_core_spec {E : Type} (ops : VOps E) (t : E)
    (rest : List E) (L : Nat) (vb : Bool) (hL : 1 ≤ L)
    (hvt : (ops.as_vector t).length = ops.n_parameters t)
    (hrest : ∀ s ∈ rest.take (L - 1),
      (ops.as_vector s).length = ops.n_parameters t) :
    ∃ log, as_matrix_core ops t rest L vb =
      .ok (ops.as_vector t :: ((rest.take (L - 1)).map ops.as_vector ++
        List.replicate (L - 1 - rest.length)
          (List.replicate (ops.n_parameters t) 0)), log) := by
  have hset := setRow_zero_alloc L (ops.n_parameters t) (ops.as_vector t)
    hL hvt
  have hv : ∀ q ∈ rest.zip (List.replicate (L - 1)
      (List.replicate (ops.n_parameters t) (0 : Int))),
      (ops.as_vector q.1).length = q.2.length := by
    intro q hq
    obtain ⟨h1, h2⟩ := mem_zip_replicate _ rest (L - 1) q hq
    rw [h2]
    simp [hrest q.1 h1]
  have hlen : ([ops.as_vector t] : List (List Int)).length +
      (List.replicate (L - 1)
        (List.replicate (ops.n_parameters t) (0 : Int))).length = L := by
    simp
    omega
  obtain ⟨log2, hfill⟩ := fillRows_eq ops L vb rest
    [ops.as_vector t] (List.replicate (L - 1)
      (List.replicate (ops.n_parameters t) 0))
    (if vb then [allocMessage] else []) hlen hv
  refine ⟨log2, ?_⟩
  simp only [as_matrix_core]
  rw [hset]
  show fillRows ops L vb rest 1
    (ops.as_vector t :: List.replicate (L - 1)
      (List.replicate (ops.n_parameters t) 0))
    (if vb then [allocMessage] else []) = _
  rw [overwrite_replicate] at hfill
  simpa using hfill

/-- C5: a lazy source with declared length `L ≥ 1` that yields more than `L`
items: the extra items are ignored, exactly `L` rows are produced — row 0
the template's encoding, rows 1 to `L-1` the next `L-1` items' encodings in
order — and every row has `n_parameters` entries, so the matrix has shape
`(L, n_parameters)`. -/
theorem as_matrix_lazy_extra_ignored {E : Type} (ops : VOps E) (t : E)
    (rest : List E) (L : Nat) (rt vb : Bool) (hL : 1 ≤ L)
    (hmore : L < (t :: rest).length)
    (hvt : (ops.as_vector t).length = ops.n_parameters t)
    (hrest : ∀ s ∈ rest.take (L - 1),
      (ops.as_vector s).length = ops.n_parameters t) :
    ∃ log, as_matrix ops (t :: rest) (some L) rt vb =
      .ok ((ops.as_vector t :: (rest.take (L - 1)).map ops.as_vector,
        if rt then some t else none), log) ∧
      (ops.as_vector t :: (rest.take (L - 1)).map ops.as_vector).length = L ∧
      ∀ row ∈ ops.as_vector t :: (rest.take (L - 1)).map ops.as_vector,
        row.length = ops.n_parameters t := by
  obtain ⟨log, hcore⟩ := as_matrix_core_spec ops t rest L vb hL hvt hrest
  have hmore2 : L < rest.length + 1 := by simpa using hmore
  have hz : L - 1 - rest.length = 0 := by omega
  rw [hz, List.replicate_zero, List.append_nil] at hcore
  refine ⟨log, ?_, ?_, ?_⟩
  · show (as_matrix_core ops t rest L vb).map
      (fun p => ((p.1, if rt then some t else none), p.2)) = _
    rw [hcore]
    rfl
  · simp [List.length_take]
    omega
  · intro row hrow
    rcases List.mem_cons.mp hrow with h | h
    · rw [h]
      exact hvt
    · obtain ⟨s, hs, hrow2⟩ := List.mem_map.mp h
      rw [← hrow2]
      exact hrest s hs

theorem as_matrix_lazy_extra_ignored_witness :
    ∃ log,
      as_matrix listOps ([[1, 2], [3, 4], [5, 6], [7, 8]] : List (List Int))
        (some 2) true false =
      .ok ((listOps.as_vector [1, 2] ::
        (([[3, 4], [5, 6], [7, 8]] : List (List Int)).take (2 - 1)).map
          listOps.as_vector,
        if true then some [1, 2] else none), log) ∧
      (listOps.as_vector [1, 2] ::
        (([[3, 4], [5, 6], [7, 8]] : List (List Int)).take (2 - 1)).map
          listOps.as_vector).length = 2 ∧
      ∀ row ∈ listOps.as_vector [1, 2] ::
          (([[3, 4], [5, 6], [7, 8]] : List (List Int)).take (2 - 1)).map
            listOps.as_vector,
        row.length = listOps.n_parameters [1, 2] :=
  as_matrix_lazy_extra_ignored listOps [1, 2] [[3, 4], [5, 6], [7, 8]] 2
    true false (by decide) (by decide) (by decide) (by decide)

/-- C6: a lazy source with a declared length greater than the number of
items it yields does not fail: the rows for the yielded items are filled in
order and every trailing row is left at the zero-initialized default (for
example declared length 5 with 3 yielded items leaves rows 3 and 4 all
zero). -/
theorem as_matrix_lazy_underfill {E : Type} (ops : VOps E) (t : E)
    (rest : List E) (L : Nat) (rt vb : Bool)
    (hless : (t :: rest).length < L)
    (hvt : (ops.as_vector t).length = ops.n_parameters t)
    (hrest : ∀ s ∈ rest, (ops.as_vector s).length = ops.n_parameters t) :
    ∃ log, as_matrix ops (t :: rest) (some L) rt vb =
      .ok (((t :: rest).map ops.as_vector ++
        List.replicate (L - (t :: rest).length)
          (List.replicate (ops.n_parameters t) 0),
        if rt then some t else none), log) := by
  have hless2 : rest.length + 1 < L := by simpa using hless
  have htake : rest.take (L - 1) = rest := List.take_of_length_le (by omega)
  obtain ⟨log, hcore⟩ := as_matrix_core_spec ops t rest L vb (by omega) hvt
    (by rw [htake]; exact hrest)
  rw [htake] at hcore
  refine ⟨log, ?_⟩
  show (as_matrix_core ops t rest L vb).map
    (fun p => ((p.1, if rt then some t else none), p.2)) = _
  rw [hcore]
  have hcount : L - 1 - rest.length = L - (t :: rest).length := by
    simp only [List.length_cons]
    omega
  rw [hcount]
  rfl

theorem as_matrix_lazy_underfill_witness :
    ∃ log,
      as_matrix listOps ([[1, 2], [3, 4], [5, 6]] : List (List Int))
        (some 5) false false =
      .ok ((([[1, 2], [3, 4], [5, 6]] : List (List Int)).map
          listOps.as_vector ++
        List.replicate (5 - ([[1, 2], [3, 4], [5, 6]] : List (List Int)).length)
          (List.replicate (listOps.n_parameters [1, 2]) 0),
        if false then some [1, 2] else none), log) :=
  as_matrix_lazy_underfill listOps [1, 2] [[3, 4], [5, 6]] 5 false false
    (by decide) (by decide) (by decide)

/-- Decoding every row with the template and re-encoding reproduces the
rows, when encode-after-decode is the identity on rows of the template's
parameter length. -/
theorem map_as_vector_from_vector {E : Type} (ops : VOps E) (t : E)
    (hinv : ∀ v : List Int, v.length = ops.n_parameters t →
      ops.as_vector (ops.from_vector t v) = v) :
    ∀ M : List (List Int), (∀ row ∈ M, row.length = ops.n_parameters t) →
      (M.map (ops.from_vector t)).map ops.as_vector = M := by
  intro M
  induction M with
  | nil => intro _; rfl
  | cons m ms ih =>
    intro hM
    simp only [List.map_cons]
    rw [hinv m (hM m (by simp)), ih (fun r hr => hM r (by simp [hr]))]

/-- C4: the round-trip contract.  First: for every matrix with at least one
row, all of whose rows have the template's parameter length, and a template
whose encode and decode are mutually inverse on such rows (and whose decoded
entities keep the template's `n_parameters`), `as_matrix` applied to
`from_matrix` of the matrix reproduces the matrix exactly.  Second:
`from_matrix` applied to the matrix and template returned by
`as_matrix(entities, return_template := true)` reproduces the original
entities' encodings (not necessarily the same objects). -/
theorem as_from_matrix_round_trip {E : Type} (ops : VOps E) :
    (∀ (template : E) (M : List (List Int)) (rt vb : Bool),
      M ≠ [] →
      (∀ row ∈ M, row.length = ops.n_parameters template) →
      (∀ v : List Int, v.length = ops.n_parameters template →
        ops.as_vector (ops.from_vector template v) = v) →
      (∀ v : List Int, v.length = ops.n_parameters template →
        ops.n_parameters (ops.from_vector template v) =
          ops.n_parameters template) →
      ∃ tm log,
        as_matrix ops (from_matrix ops M template) none rt vb =
          .ok ((M, tm), log)) ∧
    (∀ (t0 : E) (es : List E) (vb : Bool),
      (∀ e ∈ t0 :: es, (ops.as_vector e).length = ops.n_parameters t0) →
      (∀ v : List Int, v.length = ops.n_parameters t0 →
        ops.as_vector (ops.from_vector t0 v) = v) →
      ∃ M log,
        as_matrix ops (t0 :: es) none true vb = .ok ((M, some t0), log) ∧
        (from_matrix ops M t0).map ops.as_vector =
          (t0 :: es).map ops.as_vector) := by
  constructor
  · intro template M rt vb hne hM hinv hnp
    cases M with
    | nil => exact absurd rfl hne
    | cons m0 ms =>
      have hm0 : m0.length = ops.n_parameters template := hM m0 (by simp)
      have hnp0 : ops.n_parameters (ops.from_vector template m0) =
          ops.n_parameters template := hnp m0 hm0
      have hvt : (ops.as_vector (ops.from_vector template m0)).length =
          ops.n_parameters (ops.from_vector template m0) := by
        rw [hinv m0 hm0, hnp0]
        exact hm0
      have hrest : ∀ s ∈ (ms.map (ops.from_vector template)).take
          ((ms.map (ops.from_vector template)).length + 1 - 1),
          (ops.as_vector s).length =
            ops.n_parameters (ops.from_vector template m0) := by
        intro s hs
        rw [List.take_of_length_le (by omega)] at hs
        obtain ⟨m, hm, hsm⟩ := List.mem_map.mp hs
        rw [← hsm, hinv m (hM m (by simp [hm])), hnp0]
        exact hM m (by simp [hm])
      obtain ⟨log, hcore⟩ := as_matrix_core_spec ops
        (ops.from_vector template m0) (ms.map (ops.from_vector template))
        ((ms.map (ops.from_vector template)).length + 1) vb
        (by omega) hvt hrest
      rw [List.take_of_length_le (by omega)] at hcore
      rw [Nat.add_sub_cancel, Nat.sub_self, List.replicate_zero,
        List.append_nil] at hcore
      rw [map_as_vector_from_vector ops template hinv ms
        (fun r hr => hM r (by simp [hr])), hinv m0 hm0] at hcore
      refine ⟨if rt then some (ops.from_vector template m0) else none,
        log, ?_⟩
      show (as_matrix_core ops (ops.from_vector template m0)
        (ms.map (ops.from_vector template))
        ((ms.map (ops.from_vector template)).length + 1) vb).map
        (fun p => ((p.1, if rt then some (ops.from_vector template m0)
          else none), p.2)) = _
      rw [hcore]
      rfl
  · intro t0 es vb hlen hinv
    have hvt : (ops.as_vector t0).length = ops.n_parameters t0 :=
      hlen t0 (by simp)
    have hrest : ∀ s ∈ es.take (es.length + 1 - 1),
        (ops.as_vector s).length = ops.n_parameters t0 := by
      intro s hs
      rw [Nat.add_sub_cancel, List.take_length] at hs
      exact hlen s (by simp [hs])
    obtain ⟨log, hcore⟩ := as_matrix_core_spec ops t0 es (es.length + 1) vb
      (by omega) hvt hrest
    rw [Nat.add_sub_cancel, List.take_length, Nat.sub_self,
      List.replicate_zero, List.append_nil] at hcore
    refine ⟨ops.as_vector t0 :: es.map ops.as_vector, log, ?_, ?_⟩
    · show (as_matrix_core ops t0 es (es.length + 1) vb).map
        (fun p => ((p.1, some t0), p.2)) = _
      rw [hcore]
      rfl
    · have hMrows : ∀ row ∈ ops.as_vector t0 :: es.map ops.as_vector,
          row.length = ops.n_parameters t0 := by
        intro row hrow
        rcases List.mem_cons.mp hrow with h | h
        · rw [h]
          exact hvt
        · obtain ⟨e, he, hre⟩ := List.mem_map.mp h
          rw [← hre]
          exact hlen e (by simp [he])
      show ((ops.as_vector t0 :: es.map ops.as_vector).map
        (ops.from_vector t0)).map ops.as_vector = _
      rw [map_as_vector_from_vector ops t0 hinv _ hMrows]
      simp

theorem as_from_matrix_round_trip_witness :
    (∃ tm log,
      as_matrix listOps
        (from_matrix listOps ([[1, 2, 3], [4, 5, 6]] : List (List Int))
          [0, 0, 0]) none true false =
      .ok ((([[1, 2, 3], [4, 5, 6]] : List (List Int)), tm), log)) ∧
    (∃ M log,
      as_matrix listOps ([[1, 2, 3], [4, 5, 6]] : List (List Int)) none
        true false = .ok ((M, some [1, 2, 3]), log) ∧
      (from_matrix listOps M [1, 2, 3]).map listOps.as_vector =
        ([[1, 2, 3], [4, 5, 6]] : List (List Int)).map listOps.as_vector) :=
  ⟨(as_from_matrix_round_trip listOps).1 [0, 0, 0] [[1, 2, 3], [4, 5, 6]]
      true false (by decide) (by decide) (fun v _ => rfl) (fun v hv => hv),
    (as_from_matrix_round_trip listOps).2 [1, 2, 3] [[4, 5, 6]] false
      (by decide) (fun v _ => rfl)⟩

/-- C8: `from_matrix` produces, in row order, one entity per matrix row,
each obtained by invoking the template's `from_vector` on that row, and the
eager (list) output coincides with the fully consumed lazy (generator)
output.  The template is never mutated: the model is pure and no variant of
the template is ever constructed. -/
theorem from_matrix_rows {E : Type} (ops : VOps E)
    (matrix : List (List Int)) (template : E) :
    (from_matrix ops matrix template).length = matrix.length ∧
    (∀ i : Nat, (from_matrix ops matrix template)[i]? =
      (matrix[i]?).map (ops.from_vector template)) ∧
    consumeGen ops template matrix = from_matrix ops matrix template := by
  refine ⟨by simp [from_matrix],
    fun i => by simp [from_matrix, List.getElem?_map], ?_⟩
  induction matrix with
  | nil =>
    rw [consumeGen]
    split
    · rfl
    · next p h => simp [fromMatrixGenNext] at h
  | cons row rows ih =>
    rw [consumeGen]
    split
    · next h => simp [fromMatrixGenNext] at h
    · next p h =>
      simp only [fromMatrixGenNext, Option.some.injEq] at h
      rw [← h]
      show ops.from_vector template row :: consumeGen ops template rows = _
      rw [ih]
      rfl

/-- The filling loop's data output does not depend on the verbose flag: the
flag only affects the emitted log. -/
theorem fillRows_verbose_indep {E : Type} (ops : VOps E) (L : Nat) :
    ∀ (samples : List E) (i : Nat) (data : List (List Int))
      (log1 log2 : List String),
      (fillRows ops L true samples i data log1).map Prod.fst =
        (fillRows ops L false samples i data log2).map Prod.fst := by
  intro samples
  induction samples with
  | nil => intro i data log1 log2; rfl
  | cons s ss ih =>
    intro i data log1 log2
    simp only [fillRows]
    by_cases hi : i ≥ L
    · rw [if_pos hi, if_pos hi]
      rfl
    · rw [if_neg hi, if_neg hi]
      cases hsr : setRow data i (ops.as_vector s) with
      | error e => simp only [hsr]
      | ok d2 =>
        simp only [hsr]
        exact ih (i + 1) d2 _ _

/-- `as_matrix_core`'s data output does not depend on the verbose flag. -/
theorem as_matrix_core_verbose_indep {E : Type} (ops : VOps E) (t : E)
    (rest : List E) (L : Nat) :
    (as_matrix_core ops t rest L true).map Prod.fst =
      (as_matrix_core ops t rest L false).map Prod.fst := by
  simp only [as_matrix_core]
  cases hsr : setRow
      (List.replicate L (List.replicate (ops.n_parameters t) 0)) 0
      (ops.as_vector t) with
  | error e => simp only [hsr]
  | ok d2 =>
    simp only [hsr]
    exact fillRows_verbose_indep ops L rest 1 d2 _ _

/-- A successful branch of `as_matrix` produces equal (matrix, template)
pairs under both verbose settings. -/
theorem as_matrix_branch_verbose_indep {E : Type} (ops : VOps E) (t : E)
    (rest : List E) (L : Nat) (tm : Option E) :
    ((as_matrix_core ops t rest L true).map
      (fun p => ((p.1, tm), p.2))).map Prod.fst =
    ((as_matrix_core ops t rest L false).map
      (fun p => ((p.1, tm), p.2))).map Prod.fst := by
  have h := as_matrix_core_verbose_indep ops t rest L
  cases h1 : as_matrix_core ops t rest L true with
  | error e1 =>
    cases h2 : as_matrix_core ops t rest L false with
    | error e2 =>
      rw [h1, h2] at h
      simp only [Except.map, Except.error.injEq] at h
      rw [h]
    | ok p2 =>
      rw [h1, h2] at h
      simp [Except.map] at h
  | ok p1 =>
    cases h2 : as_matrix_core ops t rest L false with
    | error e2 =>
      rw [h1, h2] at h
      simp [Except.map] at h
    | ok p2 =>
      rw [h1, h2] at h
      simp only [Except.map, Except.ok.injEq] at h
      simp only [Except.map, Except.ok.injEq, h]

/-- C9: noninterference of progress reporting — for every input collection,
declared length and template flag, the matrix and optional template
returned by `as_matrix` are identical whether the verbose flag is enabled
or disabled; only the emitted progress log can differ. -/
theorem as_matrix_verbose_noninterference {E : Type} (ops : VOps E)
    (vectorizables : List E) (length : Option Nat) (rt : Bool) :
    (as_matrix ops vectorizables length rt true).map Prod.fst =
      (as_matrix ops vectorizables length rt false).map Prod.fst := by
  cases length with
  | none =>
    cases vectorizables with
    | nil => rfl
    | cons t rest =>
      exact as_matrix_branch_verbose_indep ops t rest (rest.length + 1)
        (if rt then some t else none)
  | some L =>
    cases vectorizables with
    | nil => rfl
    | cons t rest =>
      exact as_matrix_branch_verbose_indep ops t rest L
        (if rt then some t else none)

/-- C10: `as_matrix` requires at least one entity.  An empty list with no
declared length fails with the out-of-bounds subscript error before any
matrix is allocated; an exhausted lazy source fails with `StopIteration`;
and a declared length of 0 fails with the out-of-bounds row-write error
rather than returning an empty matrix. -/
theorem as_matrix_needs_first_entity {E : Type} (ops : VOps E)
    (rt vb : Bool) :
    as_matrix ops ([] : List E) none rt vb = .error .indexError ∧
    (∀ L : Nat, as_matrix ops ([] : List E) (some L) rt vb =
      .error .stopIteration) ∧
    (∀ (t : E) (rest : List E),
      as_matrix ops (t :: rest) (some 0) rt vb = .error .indexError) := by
  refine ⟨rfl, fun L => rfl, fun t rest => rfl⟩

end Menpo
